import Mathlib

/-!
Verification of the scoring core of the `pretraining` repository
(`src/pretrain/validation.py`): the epsilon-adjusted pairwise comparator
`iswin`, the all-pairs tournament `compute_wins`, the competitive-set
filter `compute_competitive_uids`, and the per-batch loss aggregation
`compute_losses`.

Python floats are modelled by `PFloat`: an exact rational for finite
values, plus `inf`, `ninf` and `nan`, with IEEE-style comparison
(`nan` compares false against everything) and IEEE-style scaling
(`0 * inf = nan`).  Python dicts keyed by uid are modelled as total
functions `ℤ → _` together with the list of keys, and dict updates as
pointwise function updates; iteration order is the key-list order, as
in Python insertion-ordered dicts.
-/

/-- Model of a Python float value as it flows through `validation.py`:
an exact rational, `+inf`, `-inf`, or `nan`. -/
inductive PFloat where
  | fin (q : ℚ)
  | inf
  | ninf
  | nan
deriving DecidableEq, Repr

namespace PFloat

/-- IEEE `<` on modelled floats: `nan` compares false against everything,
`-inf` is below every non-`nan` value, `+inf` above every non-`nan` value. -/
def lt : PFloat → PFloat → Bool
  | fin a, fin b => decide (a < b)
  | fin _, inf => true
  | ninf, fin _ => true
  | ninf, inf => true
  | _, _ => false

/-- Multiplication of a float value by a finite factor `c`, with IEEE
special cases: a nonzero finite factor times an infinity keeps (or flips)
the infinity, while `0 * (±inf) = nan`. -/
def scale (c : ℚ) : PFloat → PFloat
  | fin q => fin (c * q)
  | inf => if 0 < c then inf else if c < 0 then ninf else nan
  | ninf => if 0 < c then ninf else if c < 0 then inf else nan
  | nan => nan

end PFloat

/-- The current-block argument of an epsilon function: a concrete block,
or `math.inf` (used by `compute_competitive_uids`), modelled as `none`. -/
def CurBlock : Type := Option ℤ

/-- Model of `taoverse`'s `EpsilonFunc` collaborator: a pure function from
(current block, model block) to a decay factor (contractually in `[0,1]`). -/
structure EpsilonFunc where
  compute_epsilon : CurBlock → ℤ → ℚ

/-- `iswin` from `src/pretrain/validation.py`: adjusts each loss by
`(1 - epsilon) *` when (and only when) that side's block is strictly
smaller than the opponent's, then compares with strict `<`. -/
def iswin (loss_i loss_j : PFloat) (block_i block_j : ℤ)
    (epsilon_func : EpsilonFunc) (current_block : ℤ) : Bool :=
  let li :=
    if block_i < block_j then
      PFloat.scale (1 - epsilon_func.compute_epsilon (some current_block) block_i) loss_i
    else loss_i
  let lj :=
    if block_j < block_i then
      PFloat.scale (1 - epsilon_func.compute_epsilon (some current_block) block_j) loss_j
    else loss_j
  PFloat.lt li lj

/-- The spec's notion of a candidate's *effective* score against one
opponent: the raw score, discounted by `(1 - epsilon(current, own block))`
exactly when the candidate's block is strictly earlier than the
opponent's.  Stated from the spec's words, to be compared with `iswin`. -/
def effectiveLossSpec (own_loss : PFloat) (own_block opp_block : ℤ)
    (epsilon_func : EpsilonFunc) (current_block : ℤ) : PFloat :=
  if own_block < opp_block then
    PFloat.scale (1 - epsilon_func.compute_epsilon (some current_block) own_block) own_loss
  else own_loss

/-- Pointwise update of a dict modelled as a total function. -/
def updf {α : Type} (f : ℤ → α) (k : ℤ) (v : α) : ℤ → α :=
  fun x => if x = k then v else f x

/-- One iteration of the inner loop of `compute_wins`: skip the self pair,
otherwise credit a win to `uid_i` when `iswin` holds and count the match. -/
def innerStep (uid_to_average_loss : ℤ → PFloat) (uid_to_block : ℤ → ℤ)
    (epsilon_func : EpsilonFunc) (current_block : ℤ) (uid_i : ℤ)
    (acc : (ℤ → ℕ) × ℕ) (uid_j : ℤ) : (ℤ → ℕ) × ℕ :=
  if uid_i = uid_j then acc
  else
    (updf acc.1 uid_i
        (acc.1 uid_i +
          (if iswin (uid_to_average_loss uid_i) (uid_to_average_loss uid_j)
              (uid_to_block uid_i) (uid_to_block uid_j) epsilon_func current_block
            then 1 else 0)),
      acc.2 + 1)

/-- One iteration of the outer loop of `compute_wins`: run the inner loop
for `uid_i` over all uids with a fresh `total_matches` counter, then set
`win_rate[uid_i]`, defaulting to 1 when there were no matches. -/
def outerStep (uids : List ℤ) (uid_to_average_loss : ℤ → PFloat)
    (uid_to_block : ℤ → ℤ) (epsilon_func : EpsilonFunc) (current_block : ℤ)
    (acc : (ℤ → ℕ) × (ℤ → ℚ)) (uid_i : ℤ) : (ℤ → ℕ) × (ℤ → ℚ) :=
  let r := uids.foldl
    (innerStep uid_to_average_loss uid_to_block epsilon_func current_block uid_i)
    (acc.1, 0)
  (r.1,
    updf acc.2 uid_i (if 0 < r.2 then ((r.1 uid_i : ℚ) / (r.2 : ℚ)) else 1))

/-- `compute_wins` from `src/pretrain/validation.py`: the O(n²) all-pairs
tournament.  The returned pair models the `wins` and `win_rate` dicts
(zero-initialised over `uids`, then filled by the loops). -/
def compute_wins (uids : List ℤ) (uid_to_average_loss : ℤ → PFloat)
    (uid_to_block : ℤ → ℤ) (epsilon_func : EpsilonFunc) (current_block : ℤ) :
    (ℤ → ℕ) × (ℤ → ℚ) :=
  uids.foldl (outerStep uids uid_to_average_loss uid_to_block epsilon_func current_block)
    (fun _ => 0, fun _ => 0)

/-- `compute_competitive_uids` from `src/pretrain/validation.py`: keep a
uid iff its loss beats the fully decayed loss of every other uid submitted
at an earlier-or-equal block, where full decay multiplies a loss by
`1 - epsilon(math.inf, 0)`. -/
def compute_competitive_uids (uids : List ℤ) (uid_to_average_loss : ℤ → PFloat)
    (uid_to_block : ℤ → ℤ) (epsilon_func : EpsilonFunc) : List ℤ :=
  let fully_decayed_epsilon : ℚ := 1 - epsilon_func.compute_epsilon none 0
  let fully_decayed_losses : ℤ → PFloat :=
    fun uid => PFloat.scale fully_decayed_epsilon (uid_to_average_loss uid)
  uids.filter fun uid =>
    (uids.filter fun i =>
        decide (¬ i = uid) && decide (uid_to_block i ≤ uid_to_block uid)).all
      fun uid_other => PFloat.lt (uid_to_average_loss uid) (fully_decayed_losses uid_other)

/-- `compute_losses` from `src/pretrain/validation.py`.  The torch model
is external; its observable behaviour is abstracted into `check_result`
(the outcome of `check_for_reasonable_output`) and `eval_batch`
(the per-batch loss computation inside the `try`, `none` modelling a
raised exception, which the source converts to `math.inf`).  The result is
`none` when the function itself raises: it unconditionally indexes
`batches[0]` and `batches[1]` before the reasonable-output check, so
fewer than two batches raise `IndexError`. -/
def compute_losses {α : Type} (batches : List α) (check_result : Bool)
    (eval_batch : α → Option PFloat) : Option (List PFloat) :=
  match batches with
  | [] => none
  | [_] => none
  | _ :: _ :: _ =>
    if check_result then
      some (batches.map fun b =>
        match eval_batch b with
        | some l => l
        | none => PFloat.inf)
    else
      some (batches.map fun _ => PFloat.inf)

/-- The inner-loop predicate of `compute_wins`: `uid_j` is a distinct
opponent that `uid_i` beats. -/
def matchWin (uid_to_average_loss : ℤ → PFloat) (uid_to_block : ℤ → ℤ)
    (epsilon_func : EpsilonFunc) (current_block : ℤ) (uid_i uid_j : ℤ) : Bool :=
  if uid_i = uid_j then false
  else iswin (uid_to_average_loss uid_i) (uid_to_average_loss uid_j)
    (uid_to_block uid_i) (uid_to_block uid_j) epsilon_func current_block

/-! ### Basic facts about the float order -/

theorem PFloat.lt_irrefl (x : PFloat) : PFloat.lt x x = false := by
  cases x <;> simp [PFloat.lt]

theorem PFloat.lt_both_false (x y : PFloat) :
    (PFloat.lt x y && PFloat.lt y x) = false := by
  cases x <;> cases y <;> simp [PFloat.lt]
  intro h
  linarith

theorem PFloat.inf_lt_any (y : PFloat) : PFloat.lt PFloat.inf y = false := by
  cases y <;> rfl

theorem PFloat.fin_lt_inf (q : ℚ) : PFloat.lt (PFloat.fin q) PFloat.inf = true := rfl

/-! ### Characterisation of `compute_wins` -/

theorem innerStep_fold_snd (L : ℤ → PFloat) (B : ℤ → ℤ) (E : EpsilonFunc) (c i : ℤ)
    (l : List ℤ) (acc : (ℤ → ℕ) × ℕ) :
    (l.foldl (innerStep L B E c i) acc).2 =
      acc.2 + l.countP (fun j => !decide (i = j)) := by
  induction l generalizing acc with
  | nil => simp
  | cons a l ih =>
    rw [List.foldl_cons, ih, List.countP_cons]
    by_cases h : i = a
    · simp [innerStep, h]
    · simp [innerStep, h]
      omega

theorem innerStep_fold_fst (L : ℤ → PFloat) (B : ℤ → ℤ) (E : EpsilonFunc) (c i : ℤ)
    (l : List ℤ) (acc : (ℤ → ℕ) × ℕ) (k : ℤ) :
    (l.foldl (innerStep L B E c i) acc).1 k =
      acc.1 k + (if k = i then l.countP (matchWin L B E c i) else 0) := by
  induction l generalizing acc with
  | nil => simp
  | cons a l ih =>
    rw [List.foldl_cons, ih, List.countP_cons]
    by_cases h : i = a
    · subst h
      simp [innerStep, matchWin]
    · by_cases hk : k = i
      · subst hk
        simp [innerStep, h, matchWin, updf]
        cases iswin (L k) (L a) (B k) (B a) E c
        all_goals simp
        all_goals omega
      · simp [innerStep, h, matchWin, updf, hk]

theorem outerStep_fst (uids : List ℤ) (L : ℤ → PFloat) (B : ℤ → ℤ)
    (E : EpsilonFunc) (c : ℤ) (acc : (ℤ → ℕ) × (ℤ → ℚ)) (i k : ℤ) :
    (outerStep uids L B E c acc i).1 k =
      acc.1 k + (if k = i then uids.countP (matchWin L B E c i) else 0) := by
  simp [outerStep, innerStep_fold_fst]

theorem outerStep_snd (uids : List ℤ) (L : ℤ → PFloat) (B : ℤ → ℤ)
    (E : EpsilonFunc) (c : ℤ) (acc : (ℤ → ℕ) × (ℤ → ℚ)) (i k : ℤ) :
    (outerStep uids L B E c acc i).2 k =
      if k = i then
        (if 0 < uids.countP (fun j => !decide (i = j)) then
          ((acc.1 i + uids.countP (matchWin L B E c i) : ℕ) : ℚ) /
            ((uids.countP (fun j => !decide (i = j)) : ℕ) : ℚ)
        else 1)
      else acc.2 k := by
  simp [outerStep, innerStep_fold_snd, innerStep_fold_fst, updf]

theorem foldl_outerStep_fst (uids : List ℤ) (L : ℤ → PFloat) (B : ℤ → ℤ)
    (E : EpsilonFunc) (c : ℤ) (l : List ℤ) (acc : (ℤ → ℕ) × (ℤ → ℚ)) (u : ℤ) :
    (l.foldl (outerStep uids L B E c) acc).1 u =
      acc.1 u + l.count u * uids.countP (matchWin L B E c u) := by
  induction l generalizing acc with
  | nil => simp
  | cons a l ih =>
    rw [List.foldl_cons, ih, outerStep_fst]
    by_cases h : u = a
    · subst h
      rw [List.count_cons_self, if_pos rfl]
      ring
    · rw [List.count_cons_of_ne h, if_neg h]
      simp

theorem foldl_outerStep_snd_not_mem (uids : List ℤ) (L : ℤ → PFloat) (B : ℤ → ℤ)
    (E : EpsilonFunc) (c : ℤ) (l : List ℤ) (acc : (ℤ → ℕ) × (ℤ → ℚ)) (u : ℤ)
    (hu : u ∉ l) :
    (l.foldl (outerStep uids L B E c) acc).2 u = acc.2 u := by
  induction l generalizing acc with
  | nil => simp
  | cons a l ih =>
    rw [List.foldl_cons]
    rw [ih _ (fun h => hu (List.mem_cons_of_mem a h)), outerStep_snd]
    have h : ¬ u = a := fun h => hu (h ▸ List.mem_cons_self a l)
    simp [h]

theorem foldl_outerStep_snd_mem (uids : List ℤ) (L : ℤ → PFloat) (B : ℤ → ℤ)
    (E : EpsilonFunc) (c : ℤ) (l : List ℤ) (acc : (ℤ → ℕ) × (ℤ → ℚ)) (u : ℤ)
    (hnd : l.Nodup) (hu : u ∈ l) :
    (l.foldl (outerStep uids L B E c) acc).2 u =
      if 0 < uids.countP (fun j => !decide (u = j)) then
        ((acc.1 u + uids.countP (matchWin L B E c u) : ℕ) : ℚ) /
          ((uids.countP (fun j => !decide (u = j)) : ℕ) : ℚ)
      else 1 := by
  induction l generalizing acc with
  | nil => simp at hu
  | cons a l ih =>
    rw [List.foldl_cons]
    rcases List.mem_cons.mp hu with h | h
    · subst h
      have hnl : u ∉ l := (List.nodup_cons.mp hnd).1
      rw [foldl_outerStep_snd_not_mem _ _ _ _ _ _ _ _ hnl, outerStep_snd]
      simp
    · have hne : ¬ u = a := by
        intro he
        exact (List.nodup_cons.mp hnd).1 (he ▸ h)
      rw [ih _ (List.nodup_cons.mp hnd).2 h]
      rw [outerStep_fst]
      simp [hne]

/-- `wins[u]` as computed by `compute_wins` equals the number of distinct
opponents in `uids` that `u` beats, for `u` occurring once in `uids`. -/
theorem compute_wins_fst_char (uids : List ℤ) (L : ℤ → PFloat) (B : ℤ → ℤ)
    (E : EpsilonFunc) (c : ℤ) (u : ℤ) (hnd : uids.Nodup) (hu : u ∈ uids) :
    (compute_wins uids L B E c).1 u = uids.countP (matchWin L B E c u) := by
  rw [compute_wins, foldl_outerStep_fst]
  rw [List.count_eq_one_of_mem hnd hu]
  simp

/-- `win_rate[u]` as computed by `compute_wins`: wins over match count,
defaulting to 1 when there are no matches. -/
theorem compute_wins_snd_char (uids : List ℤ) (L : ℤ → PFloat) (B : ℤ → ℤ)
    (E : EpsilonFunc) (c : ℤ) (u : ℤ) (hnd : uids.Nodup) (hu : u ∈ uids) :
    (compute_wins uids L B E c).2 u =
      if 0 < uids.countP (fun j => !decide (u = j)) then
        ((uids.countP (matchWin L B E c u) : ℕ) : ℚ) /
          ((uids.countP (fun j => !decide (u = j)) : ℕ) : ℚ)
      else 1 := by
  rw [compute_wins, foldl_outerStep_snd_mem _ _ _ _ _ _ _ _ hnd hu]
  simp

/-- In a duplicate-free uid list, the number of opponents of a member `u`
is `uids.length - 1`. -/
theorem countP_ne_of_nodup_mem (uids : List ℤ) (u : ℤ)
    (hnd : uids.Nodup) (hu : u ∈ uids) :
    uids.countP (fun j => !decide (u = j)) = uids.length - 1 := by
  induction uids with
  | nil => simp at hu
  | cons a l ih =>
    rcases List.mem_cons.mp hu with h | h
    · subst h
      have hnl : u ∉ l := (List.nodup_cons.mp hnd).1
      have : l.countP (fun j => !decide (u = j)) = l.length := by
        rw [List.countP_eq_length]
        intro j hj
        simp
        intro he
        exact hnl (he ▸ hj)
      rw [List.countP_cons, this]
      simp
    · have hne : ¬ u = a := by
        intro he
        exact (List.nodup_cons.mp hnd).1 (he ▸ h)
      rw [List.countP_cons, ih (List.nodup_cons.mp hnd).2 h]
      have hl : 1 ≤ l.length := List.length_pos.mpr (List.ne_nil_of_mem h)
      simp [hne]
      omega

/-- A uid never beats more opponents than it has. -/
theorem countP_matchWin_le (uids : List ℤ) (L : ℤ → PFloat) (B : ℤ → ℤ)
    (E : EpsilonFunc) (c : ℤ) (u : ℤ) :
    uids.countP (matchWin L B E c u) ≤ uids.countP (fun j => !decide (u = j)) := by
  apply List.countP_mono_left
  intro j hj hw
  simp only [matchWin] at hw
  by_cases h : u = j
  · simp [h] at hw
  · simp [h]

/-! ### Characterisation of `compute_competitive_uids` -/

/-- Membership in the competitive set: `u` is kept iff it is a candidate
and its loss is strictly below the fully decayed loss of every other
candidate at an earlier-or-equal block. -/
theorem mem_compute_competitive_uids_char (uids : List ℤ) (L : ℤ → PFloat)
    (B : ℤ → ℤ) (E : EpsilonFunc) (u : ℤ) :
    u ∈ compute_competitive_uids uids L B E ↔
      u ∈ uids ∧ ∀ v ∈ uids, v ≠ u → B v ≤ B u →
        PFloat.lt (L u) (PFloat.scale (1 - E.compute_epsilon none 0) (L v)) = true := by
  simp only [compute_competitive_uids, List.mem_filter, List.all_eq_true,
    Bool.and_eq_true, decide_eq_true_eq]
  constructor
  · rintro ⟨hmem, hall⟩
    refine ⟨hmem, ?_⟩
    intro v hv hne hle
    exact hall v ⟨hv, hne, hle⟩
  · rintro ⟨hmem, hall⟩
    refine ⟨hmem, ?_⟩
    intro v hv
    exact hall v hv.1 hv.2.1 hv.2.2

/-! ### Claim theorems -/

/-- C1: `iswin` compares effective scores, where a candidate's effective
score is its raw score unless its block is strictly smaller than its
opponent's, in which case it is multiplied by `1 - epsilon(current, own
block)`; the discount direction depends only on the block order, so it is
never applied to both sides nor to the later one, and at equal blocks the
call is the plain comparison `score_i < score_j` for any epsilon function
and current block. -/
theorem iswin_effective_score_spec (li lj : PFloat) (bi bj b : ℤ)
    (E : EpsilonFunc) (c : ℤ) :
    iswin li lj bi bj E c =
      PFloat.lt (effectiveLossSpec li bi bj E c) (effectiveLossSpec lj bj bi E c) ∧
    iswin li lj b b E c = PFloat.lt li lj := by
  constructor
  · rfl
  · simp [iswin]

/-- C10: the win relation is asymmetric: `iswin(i, j)` and `iswin(j, i)`
(with the blocks swapped accordingly) are never both true, since both
calls compare the same pair of effective scores under a strict order. -/
theorem iswin_asymmetric (li lj : PFloat) (bi bj : ℤ) (E : EpsilonFunc) (c : ℤ) :
    (iswin li lj bi bj E c && iswin lj li bj bi E c) = false := by
  simp only [iswin]
  exact PFloat.lt_both_false _ _

/-- C7: with a constant epsilon of 1/2, the earlier candidate (block 0)
with raw loss 1.0 is discounted to 0.5, strictly below the later
candidate's 0.6, so it wins. -/
theorem iswin_discount_concrete :
    iswin (PFloat.fin 1) (PFloat.fin (3/5)) 0 10 ⟨fun _ _ => 1/2⟩ 10 = true := by
  norm_num [iswin, PFloat.scale, PFloat.lt]

/-- C2: `compute_competitive_uids` keeps a candidate iff, for every other
candidate at an earlier-or-equal block, its average loss is strictly below
that candidate's fully decayed loss, i.e. the raw loss multiplied by
`1 - epsilon(current = inf, model_block = 0)`. -/
theorem compute_competitive_uids_mem_iff (uids : List ℤ) (L : ℤ → PFloat)
    (B : ℤ → ℤ) (E : EpsilonFunc) (u : ℤ) :
    u ∈ compute_competitive_uids uids L B E ↔
      u ∈ uids ∧ ∀ v ∈ uids, v ≠ u → B v ≤ B u →
        PFloat.lt (L u) (PFloat.scale (1 - E.compute_epsilon none 0) (L v)) = true :=
  mem_compute_competitive_uids_char uids L B E u

/-- C5 counterexample: two candidates both at block 0 with equal losses 1
and `epsilon(inf, 0) = 1/2`: every candidate fails against the other's
fully decayed loss 1/2, so the returned list is empty and uid 0 — which
attains the minimal block of the whole input — is not a member. -/
theorem earliest_uid_not_kept_counterexample :
    compute_competitive_uids [0, 1] (fun _ => PFloat.fin 1) (fun _ => 0)
        ⟨fun _ _ => 1/2⟩ = [] ∧
    ¬ ((0 : ℤ) ∈ compute_competitive_uids [0, 1] (fun _ => PFloat.fin 1)
        (fun _ => 0) ⟨fun _ _ => 1/2⟩) := by
  constructor
  · norm_num [compute_competitive_uids, PFloat.scale, PFloat.lt, List.filter, List.all]
  · norm_num [compute_competitive_uids, PFloat.scale, PFloat.lt, List.filter, List.all]

/-- C5 amended: a candidate whose block is *strictly* smaller than every
other candidate's block is always a member of the list returned by
`compute_competitive_uids` (at a shared minimal block the guarantee
fails, as the counterexample shows). -/
theorem strictly_earliest_uid_kept (uids : List ℤ) (L : ℤ → PFloat)
    (B : ℤ → ℤ) (E : EpsilonFunc) (u : ℤ)
    (hu : u ∈ uids) (hmin : ∀ v ∈ uids, v ≠ u → B u < B v) :
    u ∈ compute_competitive_uids uids L B E := by
  rw [mem_compute_competitive_uids_char]
  refine ⟨hu, ?_⟩
  intro v hv hne hle
  exact absurd hle (not_le.mpr (hmin v hv hne))

theorem strictly_earliest_uid_kept_witness :
    (0 : ℤ) ∈ [(0 : ℤ), 1] ∧
    (0 : ℤ) ∈ compute_competitive_uids [0, 1] (fun _ => PFloat.fin 1)
      (fun v => if v = 0 then 0 else 5) ⟨fun _ _ => 1/2⟩ :=
  ⟨by decide,
    strictly_earliest_uid_kept [0, 1] (fun _ => PFloat.fin 1)
      (fun v => if v = 0 then 0 else 5) ⟨fun _ _ => 1/2⟩ 0
      (by decide) (by decide)⟩

/-- C8 counterexample: the constant epsilon function 1 has all its values
in `[0,1]`, the opponent at the strictly earlier block 0 has score
`+inf`, and yet the finite candidate does not win: the opponent's
discounted loss is `(1 - 1) * inf = 0 * inf = nan`, and every comparison
against `nan` is false.  The claim asserts this call returns true. -/
theorem finite_vs_infinite_eps_one_counterexample :
    iswin (PFloat.fin 1) PFloat.inf 1 0 ⟨fun _ _ => 1⟩ 5 = false := by
  norm_num [iswin, PFloat.scale, PFloat.lt]

/-- C8 amended: for every epsilon function with values in `[0,1)` (the
counterexample forces excluding the value 1), a candidate with score
`+inf` never wins a comparison, and it loses every comparison in which
the opponent has a finite score. -/
theorem infinite_score_always_loses (y : PFloat) (q : ℚ) (bi bj : ℤ)
    (E : EpsilonFunc) (c : ℤ)
    (heps : ∀ cb mb, 0 ≤ E.compute_epsilon cb mb ∧ E.compute_epsilon cb mb < 1) :
    iswin PFloat.inf y bi bj E c = false ∧
    iswin (PFloat.fin q) PFloat.inf bi bj E c = true := by
  have hpos : ∀ cb mb, 0 < 1 - E.compute_epsilon cb mb := by
    intro cb mb
    have := (heps cb mb).2
    linarith
  have hsc : ∀ cb mb, PFloat.scale (1 - E.compute_epsilon cb mb) PFloat.inf
      = PFloat.inf := by
    intro cb mb
    simp [PFloat.scale, hpos cb mb]
  constructor
  · simp only [iswin]
    by_cases hb : bi < bj
    · rw [if_pos hb, hsc]
      exact PFloat.inf_lt_any _
    · rw [if_neg hb]
      exact PFloat.inf_lt_any _
  · simp only [iswin]
    by_cases hb' : bj < bi
    · rw [if_pos hb', hsc]
      have hnb : ¬ bi < bj := by omega
      rw [if_neg hnb]
      exact PFloat.fin_lt_inf q
    · rw [if_neg hb']
      by_cases hb : bi < bj
      · rw [if_pos hb]
        exact PFloat.fin_lt_inf _
      · rw [if_neg hb]
        exact PFloat.fin_lt_inf q

theorem infinite_score_always_loses_witness :
    (∀ cb mb, 0 ≤ (⟨fun _ _ => mkRat 1 2⟩ : EpsilonFunc).compute_epsilon cb mb ∧
      (⟨fun _ _ => mkRat 1 2⟩ : EpsilonFunc).compute_epsilon cb mb < 1) ∧
    (iswin PFloat.inf (PFloat.fin 0) 0 3 ⟨fun _ _ => mkRat 1 2⟩ 7 = false ∧
      iswin (PFloat.fin 0) PFloat.inf 0 3 ⟨fun _ _ => mkRat 1 2⟩ 7 = true) :=
  ⟨fun _ _ => (by decide : (0 : ℚ) ≤ mkRat 1 2 ∧ mkRat 1 2 < (1 : ℚ)),
    infinite_score_always_loses (PFloat.fin 0) 0 0 3 ⟨fun _ _ => mkRat 1 2⟩ 7
      (fun _ _ => (by decide : (0 : ℚ) ≤ mkRat 1 2 ∧ mkRat 1 2 < (1 : ℚ)))⟩

/-- C3: for a duplicate-free candidate list, each member's win rate equals
`wins[uid] / (n - 1)` when `n > 1`, and equals 1 when `n = 1` (a
single-candidate round is undefeated). -/
theorem compute_wins_win_rate_eq (uids : List ℤ) (L : ℤ → PFloat) (B : ℤ → ℤ)
    (E : EpsilonFunc) (c : ℤ) (u : ℤ) (hnd : uids.Nodup) (hu : u ∈ uids) :
    (uids.length = 1 → (compute_wins uids L B E c).2 u = 1) ∧
    (1 < uids.length →
      (compute_wins uids L B E c).2 u =
        ((compute_wins uids L B E c).1 u : ℚ) / ((uids.length - 1 : ℕ) : ℚ)) := by
  rw [compute_wins_snd_char uids L B E c u hnd hu,
    compute_wins_fst_char uids L B E c u hnd hu,
    countP_ne_of_nodup_mem uids u hnd hu]
  constructor
  · intro h1
    rw [h1]
    simp
  · intro h2
    rw [if_pos (by omega)]

theorem compute_wins_win_rate_eq_witness :
    ([(3 : ℤ), 4].Nodup ∧ (3 : ℤ) ∈ [(3 : ℤ), 4]) ∧
    (([(3 : ℤ), 4].length = 1 →
        (compute_wins [3, 4] (fun u => if u = 3 then PFloat.fin 1 else PFloat.fin 2)
          (fun _ => 0) ⟨fun _ _ => mkRat 1 2⟩ 0).2 3 = 1) ∧
      (1 < [(3 : ℤ), 4].length →
        (compute_wins [3, 4] (fun u => if u = 3 then PFloat.fin 1 else PFloat.fin 2)
          (fun _ => 0) ⟨fun _ _ => mkRat 1 2⟩ 0).2 3 =
          ((compute_wins [3, 4] (fun u => if u = 3 then PFloat.fin 1 else PFloat.fin 2)
            (fun _ => 0) ⟨fun _ _ => mkRat 1 2⟩ 0).1 3 : ℚ) /
            (([(3 : ℤ), 4].length - 1 : ℕ) : ℚ))) :=
  ⟨⟨by decide, by decide⟩,
    compute_wins_win_rate_eq [3, 4] (fun u => if u = 3 then PFloat.fin 1 else PFloat.fin 2)
      (fun _ => 0) ⟨fun _ _ => mkRat 1 2⟩ 0 3 (by decide) (by decide)⟩

/-- C4 counterexample: a single candidate trivially has all-equal scores
at all-equal blocks, yet its `win_rate` is 1, not 0 (no matches, so the
default 1 applies). -/
theorem singleton_tie_win_rate_counterexample :
    (compute_wins [0] (fun _ => PFloat.fin 1) (fun _ => 0)
      ⟨fun _ _ => mkRat 1 2⟩ 0).2 0 = 1 := by
  decide

/-- C4 amended: on equal effective scores `iswin` is false in both
argument orders, so no win is credited to either side; consequently, with
*at least two* duplicate-free candidates all at equal scores and equal
blocks, every uid has `wins = 0` and `win_rate = 0` (a single candidate
instead defaults to `win_rate = 1`, as the counterexample shows). -/
theorem compute_wins_all_tied (uids : List ℤ) (L : ℤ → PFloat) (B : ℤ → ℤ)
    (E : EpsilonFunc) (c : ℤ) (x : PFloat) (b u : ℤ) (li lj : PFloat) (bi bj : ℤ)
    (heff : effectiveLossSpec li bi bj E c = effectiveLossSpec lj bj bi E c)
    (hL : ∀ v ∈ uids, L v = x) (hB : ∀ v ∈ uids, B v = b)
    (hnd : uids.Nodup) (hu : u ∈ uids) (hlen : 2 ≤ uids.length) :
    (iswin li lj bi bj E c = false ∧ iswin lj li bj bi E c = false) ∧
    (compute_wins uids L B E c).1 u = 0 ∧
    (compute_wins uids L B E c).2 u = 0 := by
  have e1 : iswin li lj bi bj E c =
      PFloat.lt (effectiveLossSpec li bi bj E c) (effectiveLossSpec lj bj bi E c) := rfl
  have e2 : iswin lj li bj bi E c =
      PFloat.lt (effectiveLossSpec lj bj bi E c) (effectiveLossSpec li bi bj E c) := rfl
  have hz : uids.countP (matchWin L B E c u) = 0 := by
    rw [List.countP_eq_zero]
    intro j hj
    simp only [matchWin]
    by_cases h : u = j
    · simp [h]
    · simp only [if_neg h]
      rw [hL u hu, hL j hj, hB u hu, hB j hj]
      simp [iswin, PFloat.lt_irrefl]
  refine ⟨⟨?_, ?_⟩, ?_, ?_⟩
  · rw [e1, heff]
    exact PFloat.lt_irrefl _
  · rw [e2, heff]
    exact PFloat.lt_irrefl _
  · rw [compute_wins_fst_char uids L B E c u hnd hu]
    exact hz
  · rw [compute_wins_snd_char uids L B E c u hnd hu,
      countP_ne_of_nodup_mem uids u hnd hu, hz, if_pos (by omega)]
    simp

theorem compute_wins_all_tied_witness :
    (effectiveLossSpec (PFloat.fin 1) 0 0 ⟨fun _ _ => mkRat 1 2⟩ 0 =
        effectiveLossSpec (PFloat.fin 1) 0 0 ⟨fun _ _ => mkRat 1 2⟩ 0 ∧
      (∀ v ∈ [(0 : ℤ), 1, 2], (fun _ : ℤ => PFloat.fin 1) v = PFloat.fin 1) ∧
      (∀ v ∈ [(0 : ℤ), 1, 2], (fun _ : ℤ => (0 : ℤ)) v = 0) ∧
      [(0 : ℤ), 1, 2].Nodup ∧ (0 : ℤ) ∈ [(0 : ℤ), 1, 2] ∧ 2 ≤ [(0 : ℤ), 1, 2].length) ∧
    ((iswin (PFloat.fin 1) (PFloat.fin 1) 0 0 ⟨fun _ _ => mkRat 1 2⟩ 0 = false ∧
        iswin (PFloat.fin 1) (PFloat.fin 1) 0 0 ⟨fun _ _ => mkRat 1 2⟩ 0 = false) ∧
      (compute_wins [0, 1, 2] (fun _ => PFloat.fin 1) (fun _ => 0)
        ⟨fun _ _ => mkRat 1 2⟩ 0).1 0 = 0 ∧
      (compute_wins [0, 1, 2] (fun _ => PFloat.fin 1) (fun _ => 0)
        ⟨fun _ _ => mkRat 1 2⟩ 0).2 0 = 0) :=
  ⟨⟨rfl, by decide, by decide, by decide, by decide, by decide⟩,
    compute_wins_all_tied [0, 1, 2] (fun _ => PFloat.fin 1) (fun _ => 0)
      ⟨fun _ _ => mkRat 1 2⟩ 0 (PFloat.fin 1) 0 0 (PFloat.fin 1) (PFloat.fin 1) 0 0
      rfl (by decide) (by decide) (by decide) (by decide) (by decide)⟩

/-- C6 counterexample: two candidates at equal blocks with distinct
losses; the loser has 0 wins while its `total_matches` is `n - 1 = 1`,
so `wins[uid] == total_matches` fails. -/
theorem wins_eq_total_matches_counterexample :
    (compute_wins [0, 1] (fun u => if u = 0 then PFloat.fin 1 else PFloat.fin 2)
      (fun _ => 0) ⟨fun _ _ => mkRat 1 2⟩ 0).1 1 ≠ [(0 : ℤ), 1].length - 1 := by
  decide

/-- C6 amended: for a duplicate-free candidate list, every member's wins
are at most `total_matches = n - 1` (equality fails in general, as the
counterexample shows), its win rate lies in `[0, 1]`, and the win rate
defaults to 1 when there are no matches (`n = 1`). -/
theorem compute_wins_bounds (uids : List ℤ) (L : ℤ → PFloat) (B : ℤ → ℤ)
    (E : EpsilonFunc) (c : ℤ) (u : ℤ) (hnd : uids.Nodup) (hu : u ∈ uids) :
    (compute_wins uids L B E c).1 u ≤ uids.length - 1 ∧
    0 ≤ (compute_wins uids L B E c).2 u ∧
    (compute_wins uids L B E c).2 u ≤ 1 ∧
    (uids.length = 1 → (compute_wins uids L B E c).2 u = 1) := by
  have hle := countP_matchWin_le uids L B E c u
  rw [countP_ne_of_nodup_mem uids u hnd hu] at hle
  rw [compute_wins_fst_char uids L B E c u hnd hu,
    compute_wins_snd_char uids L B E c u hnd hu,
    countP_ne_of_nodup_mem uids u hnd hu]
  refine ⟨hle, ?_, ?_, ?_⟩
  · split
    · positivity
    · exact zero_le_one
  · split
    · rename_i hpos
      rw [div_le_one (by exact_mod_cast hpos)]
      exact_mod_cast hle
    · exact le_refl 1
  · intro h1
    rw [h1]
    simp

theorem compute_wins_bounds_witness :
    ([(0 : ℤ), 1].Nodup ∧ (1 : ℤ) ∈ [(0 : ℤ), 1]) ∧
    ((compute_wins [0, 1] (fun u => if u = 0 then PFloat.fin 1 else PFloat.fin 2)
        (fun _ => 0) ⟨fun _ _ => mkRat 1 2⟩ 0).1 1 ≤ [(0 : ℤ), 1].length - 1 ∧
      0 ≤ (compute_wins [0, 1] (fun u => if u = 0 then PFloat.fin 1 else PFloat.fin 2)
        (fun _ => 0) ⟨fun _ _ => mkRat 1 2⟩ 0).2 1 ∧
      (compute_wins [0, 1] (fun u => if u = 0 then PFloat.fin 1 else PFloat.fin 2)
        (fun _ => 0) ⟨fun _ _ => mkRat 1 2⟩ 0).2 1 ≤ 1 ∧
      ([(0 : ℤ), 1].length = 1 →
        (compute_wins [0, 1] (fun u => if u = 0 then PFloat.fin 1 else PFloat.fin 2)
          (fun _ => 0) ⟨fun _ _ => mkRat 1 2⟩ 0).2 1 = 1)) :=
  ⟨⟨by decide, by decide⟩,
    compute_wins_bounds [0, 1] (fun u => if u = 0 then PFloat.fin 1 else PFloat.fin 2)
      (fun _ => 0) ⟨fun _ _ => mkRat 1 2⟩ 0 1 (by decide) (by decide)⟩

/-- C9 counterexample: `compute_losses` on an empty batch list raises
(`batches[0]` is an `IndexError` before any per-batch handling), modelled
by the `none` result; the claim asserts it never raises and returns one
loss per batch. -/
theorem compute_losses_raises_counterexample :
    compute_losses ([] : List Unit) true (fun _ => some (PFloat.fin 0)) = none := rfl

/-- C9 amended: for every list of *at least two* batches (fewer raise an
`IndexError` on the prompt extraction, as the counterexample shows),
`compute_losses` returns exactly one loss per input batch, with `+inf`
standing in for any batch whose evaluation failed, and for all batches
when the reasonable-output check fails. -/
theorem compute_losses_one_loss_per_batch {α : Type} (batches : List α)
    (ch : Bool) (ev : α → Option PFloat) (h : 2 ≤ batches.length) :
    ∃ ls, compute_losses batches ch ev = some ls ∧
      ls.length = batches.length ∧
      (ch = false → ∀ l ∈ ls, l = PFloat.inf) ∧
      List.Forall₂ (fun bt l => ev bt = none → l = PFloat.inf) batches ls := by
  cases batches with
  | nil => simp at h
  | cons a t =>
    cases t with
    | nil => simp at h
    | cons b t =>
      cases ch with
      | false =>
        refine ⟨(a :: b :: t).map (fun _ => PFloat.inf), rfl, by simp, ?_, ?_⟩
        · intro _ l hl
          rcases List.mem_map.mp hl with ⟨_, _, hmap⟩
          exact hmap.symm
        · rw [List.forall₂_map_right_iff]
          rw [List.forall₂_same]
          intro v hv hnone
          rfl
      | true =>
        refine ⟨(a :: b :: t).map (fun bt =>
            match ev bt with
            | some l => l
            | none => PFloat.inf), rfl, by simp, ?_, ?_⟩
        · intro hft
          exact absurd hft (by simp)
        · rw [List.forall₂_map_right_iff]
          rw [List.forall₂_same]
          intro v hv hnone
          rw [hnone]

theorem compute_losses_one_loss_per_batch_witness :
    2 ≤ ([0, 1] : List ℕ).length ∧
    (∃ ls, compute_losses ([0, 1] : List ℕ) true
        (fun n => if n = 1 then none else some (PFloat.fin 2)) = some ls ∧
      ls.length = ([0, 1] : List ℕ).length ∧
      (true = false → ∀ l ∈ ls, l = PFloat.inf) ∧
      List.Forall₂ (fun bt l =>
        (fun n : ℕ => if n = 1 then none else some (PFloat.fin 2)) bt = none →
          l = PFloat.inf) [0, 1] ls) :=
  ⟨by decide,
    compute_losses_one_loss_per_batch [0, 1] true
      (fun n => if n = 1 then none else some (PFloat.fin 2)) (by decide)⟩
